import Mathlib

/-!
Shallow embedding of `main.py` from the Watsky word-grids repository.

Conventions of the embedding:
* Python strings are embedded as `List Char`; a `Word` is such a list.
* The lookup dictionary is embedded as a function from keys to
  `Option (List Word)`: `none` models a key absent from the dict, which is
  what Python's `tup in d` tests observe; `dict_add` models the
  append-or-create update `d[tup].append(word)` / `d[tup] = [word]`.
* Fallible operations (Python indexing that can raise `IndexError`) return
  `Option`: a result of `none` models an uncaught exception, `some` a normal
  return value.
* The recursion of `update_words` is not structural, so the embedding
  threads an explicit fuel argument; the wrapper `update_words` supplies
  `possible_words.length + 1`, which exceeds every reachable recursion depth
  (each recursive call increments `word_idx` and requires
  `word_idx < possible_words.length`, and the length is preserved).
* Loading the word pool from `words.txt` (`get_word_pool`) is excluded I/O;
  `find_words` therefore takes the already-loaded pool as a parameter, as
  described by the program's external-interface contract.
* Nat subtraction `num_parts - 1` agrees with Python's `num_parts - 1`
  whenever `1 ≤ num_parts`, which holds in every statement below.
-/

/-- A word of the pool: a Python string as a list of characters. -/
abbrev Word := List Char

/-- A solution row list, as returned by `update_words` / `find_words`. -/
abbrev Solution := List Word

/-- The lookup dictionary: a map from `(partition text, index)` keys to the
bucket of words carrying that partition at that index; `none` models a key
that is absent from the Python dict. -/
abbrev WordDict := (List Char × Nat) → Option (List Word)

/-- `get_part word part_len idx` embeds
`word[part_len * idx : part_len * (idx + 1)]`. -/
def get_part (word : Word) (part_len idx : Nat) : List Char :=
  (word.drop (part_len * idx)).take part_len

/-- One dictionary update, embedding
`if tup in d: d[tup].append(word) else: d[tup] = [word]`. -/
def dict_add (d : WordDict) (key : List Char × Nat) (word : Word) : WordDict :=
  fun k => if k = key then some ((d key).getD [] ++ [word]) else d k

/-- The inner loop of `make_word_dict`: insert `word` at every key
`(word[idx * part_len:(idx + 1) * part_len], idx)` for `idx` in
`range(num_parts)`. -/
def add_word_parts (d : WordDict) (word : Word) (part_len : Nat) : Nat → WordDict
  | 0 => d
  | idx + 1 =>
    dict_add (add_word_parts d word part_len idx) (get_part word part_len idx, idx) word

/-- The outer loop of `make_word_dict` over the word pool, starting from a
given dictionary. -/
def make_word_dict_aux (part_len num_parts : Nat) : WordDict → List Word → WordDict
  | d, [] => d
  | d, word :: rest =>
    make_word_dict_aux part_len num_parts (add_word_parts d word part_len num_parts) rest

/-- Embedding of `make_word_dict(word_pool, part_len, num_parts)`. -/
def make_word_dict (word_pool : List Word) (part_len num_parts : Nat) : WordDict :=
  make_word_dict_aux part_len num_parts (fun _ => none) word_pool

/-- The reformatting loop of the terminal case of `update_words`:
`for idx in range(n): solutions.append(possible_words[idx][0])`.
Returns `none` when an access is out of bounds or a row is empty
(Python `IndexError`). -/
def getFirsts (possible_words : List (List Word)) : Nat → Option (List Word)
  | 0 => some []
  | n + 1 =>
    match getFirsts possible_words n, possible_words[n]? with
    | some acc, some row =>
      match row.head? with
      | some h => some (acc ++ [h])
      | none => none
    | _, _ => none

/-- The pruning loop of the branching case of `update_words`:
`for part in range(word_idx + 1, num_parts)` (the list of `part` values is
passed explicitly).  The outer `Option` models an exception (`none` only on
an out-of-bounds row access); the inner `Option` is the `valid` flag:
`some none` means the candidate was abandoned, `some (some pwc)` returns the
updated copy of `possible_words`. -/
def prune (curr_word : Word) (lookup_dict : WordDict) (part_len word_idx : Nat) :
    List (List Word) → List Nat → Option (Option (List (List Word)))
  | pwc, [] => some (some pwc)
  | pwc, part :: parts =>
    match lookup_dict (get_part curr_word part_len part, word_idx) with
    | none => some none
    | some temp =>
      match pwc[part]? with
      | none => none
      | some row =>
        let new_words := temp.filter (fun word => decide (word ∈ row))
        if new_words = [] then some none
        else prune curr_word lookup_dict part_len word_idx (pwc.set part new_words) parts

/-- The candidate loop `for curr_word in possible_words[word_idx]` of the
branching case of `update_words`.  Each candidate works on
`possible_words.copy()` with slot `word_idx` rebound to `[curr_word]`
(embedded as `List.set`); `recurse` is the recursive call on the pruned
copy.  `none` models an exception escaping the loop. -/
def try_candidates (lookup_dict : WordDict) (part_len num_parts word_idx : Nat)
    (possible_words : List (List Word))
    (recurse : List (List Word) → Option (List Solution)) : List Word → Option (List Solution)
  | [] => some []
  | curr_word :: rest =>
    match prune curr_word lookup_dict part_len word_idx (possible_words.set word_idx [curr_word])
        (List.range' (word_idx + 1) (num_parts - (word_idx + 1))) with
    | none => none
    | some none =>
      try_candidates lookup_dict part_len num_parts word_idx possible_words recurse rest
    | some (some pwc2) =>
      match recurse pwc2,
          try_candidates lookup_dict part_len num_parts word_idx possible_words recurse rest with
      | some s1, some s2 => some (s1 ++ s2)
      | _, _ => none

/-- Fuel-indexed embedding of `update_words`; fuel `0` is never reached for
the fuel supplied by the `update_words` wrapper. -/
def update_wordsF (lookup_dict : WordDict) (part_len num_parts : Nat) :
    Nat → List (List Word) → Nat → Option (List Solution)
  | 0, _, _ => none
  | fuel + 1, possible_words, word_idx =>
    if word_idx = num_parts - 1 then
      match possible_words[num_parts - 1]? with
      | none => none
      | some lastRow =>
        if lastRow.length = 0 then some []
        else
          match getFirsts possible_words (num_parts - 1), possible_words.getLast? with
          | some firsts, some finalRow => some (finalRow.map (fun word => firsts ++ [word]))
          | _, _ => none
    else
      match possible_words[word_idx]? with
      | none => none
      | some row =>
        try_candidates lookup_dict part_len num_parts word_idx possible_words
          (fun pwc2 => update_wordsF lookup_dict part_len num_parts fuel pwc2 (word_idx + 1)) row

/-- Embedding of `update_words(possible_words, lookup_dict, part_len,
num_parts, word_idx)`.  `none` models an uncaught `IndexError`. -/
def update_words (possible_words : List (List Word)) (lookup_dict : WordDict)
    (part_len num_parts word_idx : Nat) : Option (List Solution) :=
  update_wordsF lookup_dict part_len num_parts (possible_words.length + 1)
    possible_words word_idx

/-- The seeding loop of `find_words`:
`for part in range(1, num_parts)` (the list of `part` values is passed
explicitly), stopping at the first absent key (`break`). -/
def seedRows (first : Word) (lookup_dict : WordDict) (part_len : Nat) :
    List (List Word) → List Nat → List (List Word)
  | pw, [] => pw
  | pw, part :: parts =>
    match lookup_dict (get_part first part_len part, 0) with
    | none => pw
    | some bucket => seedRows first lookup_dict part_len (pw.set part bucket) parts

/-- The `possible_words` structure built by `find_words` for a first word:
`[[]] * num_parts` with slot `0` rebound to `[first]`, then the seeding
loop. -/
def seed (first : Word) (lookup_dict : WordDict) (part_len num_parts : Nat) :
    List (List Word) :=
  seedRows first lookup_dict part_len
    ((List.replicate num_parts ([] : List Word)).set 0 [first])
    (List.range' 1 (num_parts - 1))

/-- The outer loop of `find_words` over first words; the solutions of each
first word are appended in pool order.  `none` models an exception aborting
the loop. -/
def solveLoop (lookup_dict : WordDict) (part_len num_parts : Nat) :
    List Word → Option (List Solution)
  | [] => some []
  | first :: rest =>
    match update_words (seed first lookup_dict part_len num_parts) lookup_dict
        part_len num_parts 1 with
    | none => none
    | some s1 =>
      match solveLoop lookup_dict part_len num_parts rest with
      | none => none
      | some s2 => some (s1 ++ s2)

/-- Embedding of `find_words`; the word pool (loaded by the excluded
collaborator `get_word_pool`) is passed as a parameter. -/
def find_words (word_pool : List Word) (part_len num_parts : Nat) :
    Option (List Solution) :=
  solveLoop (make_word_dict word_pool part_len num_parts) part_len num_parts word_pool

/-- Ghost-instrumented variant of `solveLoop`: identical control flow, but
additionally counts how many times `update_words` is invoked before the loop
finishes or an exception aborts it.  Used to settle whether the backtracking
search is invoked for first words whose seeding fails. -/
def solveLoopCount (lookup_dict : WordDict) (part_len num_parts : Nat) :
    List Word → Option (List Solution) × Nat
  | [] => (some [], 0)
  | first :: rest =>
    match update_words (seed first lookup_dict part_len num_parts) lookup_dict
        part_len num_parts 1 with
    | none => (none, 1)
    | some s1 =>
      match solveLoopCount lookup_dict part_len num_parts rest with
      | (none, k) => (none, k + 1)
      | (some s2, k) => (some (s1 ++ s2), k + 1)

/-- One recursive descent step of the branching case of `update_words`: from
the state `(possible_words, word_idx)` pick a candidate `c` of row
`word_idx`, fix it, prune the later rows, and (when the candidate survives)
recurse on the pruned copy with `word_idx + 1`. -/
def SearchStep (d : WordDict) (pl np : Nat) :
    List (List Word) × Nat → List (List Word) × Nat → Prop :=
  fun s s' => ∃ row c pwc2,
    s.2 ≠ np - 1 ∧
    s.1[s.2]? = some row ∧ c ∈ row ∧
    prune c d pl s.2 (s.1.set s.2 [c]) (List.range' (s.2 + 1) (np - (s.2 + 1))) =
      some (some pwc2) ∧
    s' = (pwc2, s.2 + 1)

/-! ### List access helpers -/

theorem getD_eq_getElem?_getD {α : Type} (l : List α) (i : Nat) (d : α) :
    l.getD i d = l[i]?.getD d := by
  simp [List.getD]

theorem getElem?_eq_some_getD {α : Type} (l : List α) (i : Nat) (d : α) (h : i < l.length) :
    l[i]? = some (l.getD i d) := by
  simp [getD_eq_getElem?_getD, List.getElem?_eq_getElem h]

theorem getD_set_ne {α : Type} (l : List α) {i j : Nat} (a : α) (d : α) (h : i ≠ j) :
    (l.set i a).getD j d = l.getD j d := by
  simp [getD_eq_getElem?_getD, List.getElem?_set_ne h]

theorem getD_set_eq {α : Type} (l : List α) {i : Nat} (a : α) (d : α) (h : i < l.length) :
    (l.set i a).getD i d = a := by
  simp [getD_eq_getElem?_getD, List.getElem?_set_eq_of_lt a h]

theorem getD_range_map {α : Type} (f : Nat → α) (d : α) {i n : Nat} (h : i < n) :
    ((List.range n).map f).getD i d = f i := by
  simp [getD_eq_getElem?_getD, List.getElem?_map, List.getElem?_range h]

theorem getD_append_left {α : Type} {l₁ l₂ : List α} {i : Nat} (d : α) (h : i < l₁.length) :
    (l₁ ++ l₂).getD i d = l₁.getD i d := by
  simp [getD_eq_getElem?_getD, List.getElem?_append_left h]

theorem getD_append_length {α : Type} (l : List α) (x : α) (d : α) :
    (l ++ [x]).getD l.length d = x := by
  simp [getD_eq_getElem?_getD, List.getElem?_concat_length]

theorem getD_replicate_nil (n j : Nat) :
    (List.replicate n ([] : List Word)).getD j [] = [] := by
  rcases Nat.lt_or_ge j n with h | h
  · rw [getD_eq_getElem?_getD, List.getElem?_eq_getElem (by simpa using h)]
    simp
  · rw [getD_eq_getElem?_getD, List.getElem?_eq_none (by simpa using h)]
    rfl

theorem eq_range_map_getD {α : Type} (l : List α) (d : α) :
    l = (List.range l.length).map (fun i => l.getD i d) := by
  apply List.ext_getElem (by simp)
  intro i h1 h2
  have hi : i < l.length := h1
  simp [getD_eq_getElem?_getD, List.getElem?_eq_getElem hi]

theorem head?_of_ne_nil {α : Type} {l : List α} (d : α) (h : l ≠ []) :
    l.head? = some (l.headD d) := by
  cases l with
  | nil => exact absurd rfl h
  | cons a t => rfl

theorem mem_getElem?_some {α : Type} {l : List α} {i : Nat} {a : α}
    (h : l[i]? = some a) : a ∈ l := by
  rcases Nat.lt_or_ge i l.length with hi | hi
  · rw [List.getElem?_eq_getElem hi] at h
    cases h
    exact List.getElem_mem hi
  · rw [List.getElem?_eq_none hi] at h
    cases h

theorem getElem?_some_getD {α : Type} {l : List α} {i : Nat} {a : α} (d : α)
    (h : l[i]? = some a) : l.getD i d = a := by
  rw [getD_eq_getElem?_getD, h]
  rfl

/-! ### Characterization of `make_word_dict` -/

theorem add_word_parts_apply (d : WordDict) (word : Word) (pl : Nat) :
    ∀ (n : Nat) (t : List Char) (p : Nat),
      add_word_parts d word pl n (t, p) =
        if p < n ∧ get_part word pl p = t then some ((d (t, p)).getD [] ++ [word])
        else d (t, p) := by
  intro n
  induction n with
  | zero => intro t p; simp [add_word_parts]
  | succ n ih =>
    intro t p
    show dict_add (add_word_parts d word pl n) (get_part word pl n, n) word (t, p) = _
    rw [dict_add]
    by_cases hk : ((t, p) : List Char × Nat) = (get_part word pl n, n)
    · rw [if_pos hk]
      obtain ⟨ht, hp⟩ := Prod.mk.injEq .. ▸ hk
      rw [ih]
      rw [if_neg (by simp [hp])]
      rw [if_pos ⟨by omega, by rw [hp, ht]⟩, hk]
    · rw [if_neg hk, ih]
      have hcond : (p < n ∧ get_part word pl p = t) ↔ (p < n + 1 ∧ get_part word pl p = t) := by
        constructor
        · rintro ⟨h1, h2⟩; exact ⟨by omega, h2⟩
        · rintro ⟨h1, h2⟩
          refine ⟨?_, h2⟩
          rcases Nat.lt_or_ge p n with h | h
          · exact h
          · exfalso
            have hp : p = n := by omega
            exact hk (by rw [hp, ← h2, hp])
      by_cases hc : p < n ∧ get_part word pl p = t
      · rw [if_pos hc, if_pos (hcond.mp hc)]
      · rw [if_neg hc, if_neg (fun h => hc (hcond.mpr h))]

theorem make_word_dict_aux_apply (pl np : Nat) :
    ∀ (ws : List Word) (d : WordDict) (t : List Char) (p : Nat),
      make_word_dict_aux pl np d ws (t, p) =
        if p < np ∧ ws.filter (fun w => decide (get_part w pl p = t)) ≠ [] then
          some ((d (t, p)).getD [] ++ ws.filter (fun w => decide (get_part w pl p = t)))
        else d (t, p) := by
  intro ws
  induction ws with
  | nil => intro d t p; simp [make_word_dict_aux]
  | cons w ws ih =>
    intro d t p
    show make_word_dict_aux pl np (add_word_parts d w pl np) ws (t, p) = _
    rw [ih]
    by_cases hp : p < np
    · by_cases hw : get_part w pl p = t
      · have hfil : (w :: ws).filter (fun w => decide (get_part w pl p = t)) =
            w :: ws.filter (fun w => decide (get_part w pl p = t)) := by
          simp [List.filter_cons, hw]
        rw [hfil]
        have hd' : add_word_parts d w pl np (t, p) = some ((d (t, p)).getD [] ++ [w]) := by
          rw [add_word_parts_apply, if_pos ⟨hp, hw⟩]
        by_cases hws : ws.filter (fun w => decide (get_part w pl p = t)) = []
        · rw [if_neg (by simp [hws]), hd', if_pos (by simp [hp]), hws]
        · rw [if_pos ⟨hp, hws⟩, hd', if_pos (by simp [hp])]
          simp
      · have hfil : (w :: ws).filter (fun w => decide (get_part w pl p = t)) =
            ws.filter (fun w => decide (get_part w pl p = t)) := by
          simp [List.filter_cons, hw]
        rw [hfil]
        have hd' : add_word_parts d w pl np (t, p) = d (t, p) := by
          rw [add_word_parts_apply, if_neg (by simp [hw])]
        rw [hd']
    · rw [if_neg (by simp [hp]), if_neg (by simp [hp])]
      rw [add_word_parts_apply, if_neg (by simp [hp])]

theorem make_word_dict_apply (pool : List Word) (pl np : Nat) (t : List Char) (p : Nat) :
    make_word_dict pool pl np (t, p) =
      if p < np ∧ pool.filter (fun w => decide (get_part w pl p = t)) ≠ [] then
        some (pool.filter (fun w => decide (get_part w pl p = t)))
      else none := by
  show make_word_dict_aux pl np (fun _ => none) pool (t, p) = _
  rw [make_word_dict_aux_apply]
  by_cases hc : p < np ∧ pool.filter (fun w => decide (get_part w pl p = t)) ≠ []
  · rw [if_pos hc, if_pos hc]
    rfl
  · rw [if_neg hc, if_neg hc]

theorem lookup_mem {pool : List Word} {pl np : Nat} {t : List Char} {p : Nat}
    {l : List Word} (h : make_word_dict pool pl np (t, p) = some l)
    {w : Word} (hw : w ∈ l) : w ∈ pool ∧ get_part w pl p = t := by
  rw [make_word_dict_apply] at h
  by_cases hc : p < np ∧ pool.filter (fun w => decide (get_part w pl p = t)) ≠ []
  · rw [if_pos hc] at h
    cases h
    have := List.mem_filter.mp hw
    exact ⟨this.1, by simpa using this.2⟩
  · rw [if_neg hc] at h
    cases h

theorem lookup_some {pool : List Word} {pl np : Nat} {t : List Char} {p : Nat} {w : Word}
    (hp : p < np) (hw : w ∈ pool) (ht : get_part w pl p = t) :
    ∃ l, make_word_dict pool pl np (t, p) = some l ∧ w ∈ l := by
  have hmem : w ∈ pool.filter (fun w => decide (get_part w pl p = t)) :=
    List.mem_filter.mpr ⟨hw, by simpa using ht⟩
  refine ⟨pool.filter (fun w => decide (get_part w pl p = t)), ?_, hmem⟩
  rw [make_word_dict_apply, if_pos ⟨hp, fun hnil => by simp [hnil] at hmem⟩]

/-! ### Properties of the pruning loop -/

theorem prune_spec (curr : Word) (d : WordDict) (pl wi : Nat) :
    ∀ (parts : List Nat) (pwc pwc2 : List (List Word)), parts.Nodup →
      prune curr d pl wi pwc parts = some (some pwc2) →
      pwc2.length = pwc.length ∧
      (∀ j, j ∉ parts → pwc2.getD j [] = pwc.getD j []) ∧
      (∀ j, j ∈ parts → j < pwc.length ∧ ∃ temp,
        d (get_part curr pl j, wi) = some temp ∧
        pwc2.getD j [] = temp.filter (fun w => decide (w ∈ pwc.getD j [])) ∧
        pwc2.getD j [] ≠ []) := by
  intro parts
  induction parts with
  | nil =>
    intro pwc pwc2 _ h
    rw [prune] at h
    cases h
    exact ⟨rfl, fun j _ => rfl, fun j hj => absurd hj (List.not_mem_nil j)⟩
  | cons p rest ih =>
    intro pwc pwc2 hnd h
    rw [prune] at h
    cases htemp : d (get_part curr pl p, wi) with
    | none => rw [htemp] at h; cases h
    | some temp =>
      rw [htemp] at h
      cases hrow : pwc[p]? with
      | none => rw [hrow] at h; cases h
      | some row =>
        rw [hrow] at h
        simp only at h
        by_cases hnw : temp.filter (fun word => decide (word ∈ row)) = []
        · rw [if_pos hnw] at h; cases h
        · rw [if_neg hnw] at h
          have hp_lt : p < pwc.length := by
            rcases Nat.lt_or_ge p pwc.length with hlt | hge
            · exact hlt
            · rw [List.getElem?_eq_none hge] at hrow; cases hrow
          have hnd' : rest.Nodup := (List.nodup_cons.mp hnd).2
          have hpnotin : p ∉ rest := (List.nodup_cons.mp hnd).1
          obtain ⟨ihlen, ihout, ihin⟩ := ih _ _ hnd' h
          have hsetlen : (pwc.set p (temp.filter (fun word => decide (word ∈ row)))).length
              = pwc.length := by simp
          refine ⟨by rw [ihlen, hsetlen], ?_, ?_⟩
          · intro j hj
            have hjp : j ≠ p := fun hh => hj (hh ▸ List.mem_cons_self p rest)
            have hjrest : j ∉ rest := fun hh => hj (List.mem_cons_of_mem p hh)
            rw [ihout j hjrest, getD_set_ne _ _ _ (fun hh => hjp hh.symm)]
          · intro j hj
            rcases List.mem_cons.mp hj with hjp | hjrest
            · subst hjp
              have hval : pwc2.getD j [] = temp.filter (fun word => decide (word ∈ row)) := by
                rw [ihout j hpnotin, getD_set_eq _ _ _ hp_lt]
              have hrowD : pwc.getD j [] = row := getElem?_some_getD _ hrow
              refine ⟨hp_lt, temp, htemp, ?_, by rw [hval]; exact hnw⟩
              rw [hval, hrowD]
            · obtain ⟨hlt, temp', htemp', hval, hne⟩ := ihin j hjrest
              have hjp : j ≠ p := fun hh => hpnotin (hh ▸ hjrest)
              refine ⟨by rw [hsetlen] at hlt; exact hlt, temp', htemp', ?_, hne⟩
              rw [hval, getD_set_ne _ _ _ (fun hh => hjp hh.symm)]

theorem prune_ne_none (curr : Word) (d : WordDict) (pl wi : Nat) :
    ∀ (parts : List Nat) (pwc : List (List Word)),
      (∀ j ∈ parts, j < pwc.length) →
      ∃ r, prune curr d pl wi pwc parts = some r := by
  intro parts
  induction parts with
  | nil => intro pwc _; exact ⟨some pwc, rfl⟩
  | cons p rest ih =>
    intro pwc hb
    rw [prune]
    cases htemp : d (get_part curr pl p, wi) with
    | none => exact ⟨none, rfl⟩
    | some temp =>
      have hp_lt : p < pwc.length := hb p (List.mem_cons_self p rest)
      rw [getElem?_eq_some_getD pwc p [] hp_lt]
      simp only
      by_cases hnw : temp.filter (fun word => decide (word ∈ pwc.getD p [])) = []
      · rw [if_pos hnw]; exact ⟨none, rfl⟩
      · rw [if_neg hnw]
        exact ih _ (fun j hj => by
          rw [List.length_set]; exact hb j (List.mem_cons_of_mem p hj))

theorem prune_success (curr : Word) (d : WordDict) (pl wi : Nat) :
    ∀ (parts : List Nat) (pwc : List (List Word)), parts.Nodup →
      (∀ j ∈ parts, j < pwc.length ∧ ∃ temp,
        d (get_part curr pl j, wi) = some temp ∧
        ∃ w, w ∈ temp ∧ w ∈ pwc.getD j []) →
      ∃ pwc2, prune curr d pl wi pwc parts = some (some pwc2) := by
  intro parts
  induction parts with
  | nil => intro pwc _ _; exact ⟨pwc, rfl⟩
  | cons p rest ih =>
    intro pwc hnd hb
    obtain ⟨hp_lt, temp, htemp, w, hwt, hwr⟩ := hb p (List.mem_cons_self p rest)
    rw [prune, htemp, getElem?_eq_some_getD pwc p [] hp_lt]
    simp only
    have hnw : temp.filter (fun word => decide (word ∈ pwc.getD p [])) ≠ [] := by
      intro hnil
      have : w ∈ temp.filter (fun word => decide (word ∈ pwc.getD p [])) :=
        List.mem_filter.mpr ⟨hwt, by simpa using hwr⟩
      rw [hnil] at this
      cases this
    rw [if_neg hnw]
    refine ih _ (List.nodup_cons.mp hnd).2 ?_
    intro j hj
    have hjp : j ≠ p := fun hh => (List.nodup_cons.mp hnd).1 (hh ▸ hj)
    obtain ⟨hlt, temp', htemp', w', hwt', hwr'⟩ := hb j (List.mem_cons_of_mem p hj)
    refine ⟨by simpa using hlt, temp', htemp', w', hwt', ?_⟩
    rw [getD_set_ne _ _ _ (fun hh => hjp hh.symm)]
    exact hwr'

/-! ### The terminal reformatting loop -/

theorem getFirsts_eq (pw : List (List Word)) :
    ∀ n, (∀ i, i < n → i < pw.length ∧ pw.getD i [] ≠ []) →
      getFirsts pw n = some ((List.range n).map (fun i => (pw.getD i []).headD [])) := by
  intro n
  induction n with
  | zero => intro _; rfl
  | succ n ih =>
    intro h
    obtain ⟨hlt, hne⟩ := h n (Nat.lt_succ_self n)
    rw [getFirsts, ih (fun i hi => h i (Nat.lt_succ_of_lt hi)),
      getElem?_eq_some_getD pw n [] hlt]
    simp only
    rw [head?_of_ne_nil [] hne]
    simp [List.range_succ]

/-! ### Seeding lemmas -/

theorem seedRows_length (first : Word) (d : WordDict) (pl : Nat) :
    ∀ (parts : List Nat) (pw : List (List Word)),
      (seedRows first d pl pw parts).length = pw.length := by
  intro parts
  induction parts with
  | nil => intro pw; rfl
  | cons p rest ih =>
    intro pw
    rw [seedRows]
    cases d (get_part first pl p, 0) with
    | none => rfl
    | some bucket => rw [ih]; simp

theorem seedRows_getD_not_mem (first : Word) (d : WordDict) (pl : Nat) :
    ∀ (parts : List Nat) (pw : List (List Word)) (j : Nat),
      (∀ q ∈ parts, q ≠ j) →
      (seedRows first d pl pw parts).getD j [] = pw.getD j [] := by
  intro parts
  induction parts with
  | nil => intro pw j _; rfl
  | cons p rest ih =>
    intro pw j hq
    rw [seedRows]
    cases d (get_part first pl p, 0) with
    | none => rfl
    | some bucket =>
      rw [ih _ _ (fun q hqr => hq q (List.mem_cons_of_mem p hqr)),
        getD_set_ne _ _ _ (hq p (List.mem_cons_self p rest))]

theorem seedRows_getD_cases (first : Word) (d : WordDict) (pl : Nat) :
    ∀ (parts : List Nat) (pw : List (List Word)) (j : Nat),
      (seedRows first d pl pw parts).getD j [] = pw.getD j [] ∨
      d (get_part first pl j, 0) = some ((seedRows first d pl pw parts).getD j []) := by
  intro parts
  induction parts with
  | nil => intro pw j; exact Or.inl rfl
  | cons p rest ih =>
    intro pw j
    rw [seedRows]
    cases hb : d (get_part first pl p, 0) with
    | none => exact Or.inl rfl
    | some bucket =>
      rcases ih (pw.set p bucket) j with hsame | hdict
      · by_cases hjp : j = p
        · subst hjp
          rcases Nat.lt_or_ge j pw.length with hlt | hge
          · rw [hsame, getD_set_eq _ _ _ hlt]
            exact Or.inr (by rw [hb])
          · rw [hsame, getD_eq_getElem?_getD, List.set_eq_of_length_le (by simpa using hge),
              ← getD_eq_getElem?_getD]
            exact Or.inl rfl
        · rw [hsame, getD_set_ne _ _ _ (fun hh => hjp hh.symm)]
          exact Or.inl rfl
      · exact Or.inr hdict

theorem seed_length (first : Word) (d : WordDict) (pl np : Nat) :
    (seed first d pl np).length = np := by
  rw [seed, seedRows_length]
  simp

theorem seed_getD_zero (first : Word) (d : WordDict) (pl np : Nat) (hnp : 1 ≤ np) :
    (seed first d pl np).getD 0 [] = [first] := by
  rw [seed, seedRows_getD_not_mem]
  · rw [getD_set_eq _ _ _ (by simpa using hnp)]
  · intro q hq
    have := List.mem_range'_1.mp hq
    omega

theorem seed_getD_pos (first : Word) (d : WordDict) (pl np : Nat) {j : Nat}
    (hj0 : 1 ≤ j) :
    (seed first d pl np).getD j [] = [] ∨
    d (get_part first pl j, 0) = some ((seed first d pl np).getD j []) := by
  rcases seedRows_getD_cases first d pl (List.range' 1 (np - 1))
      ((List.replicate np ([] : List Word)).set 0 [first]) j with hsame | hdict
  · rw [seed, hsame, getD_set_ne _ _ _ (by omega), getD_replicate_nil]
    exact Or.inl rfl
  · exact Or.inr hdict

theorem seed_success (first : Word) (d : WordDict) (pl : Nat) :
    ∀ (parts : List Nat) (pw : List (List Word)), parts.Nodup →
      (∀ q ∈ parts, ∃ b, d (get_part first pl q, 0) = some b) →
      ∀ j ∈ parts, j < pw.length →
        ∃ b, d (get_part first pl j, 0) = some b ∧
          (seedRows first d pl pw parts).getD j [] = b := by
  intro parts
  induction parts with
  | nil => intro pw _ _ j hj; cases hj
  | cons p rest ih =>
    intro pw hnd hkeys j hj hlt
    obtain ⟨b, hb⟩ := hkeys p (List.mem_cons_self p rest)
    rw [seedRows, hb]
    rcases List.mem_cons.mp hj with hjp | hjrest
    · subst hjp
      refine ⟨b, hb, ?_⟩
      rw [seedRows_getD_not_mem _ _ _ _ _ _
          (fun q hq hh => (List.nodup_cons.mp hnd).1 (by rwa [hh] at hq)),
        getD_set_eq _ _ _ hlt]
    · exact ih _ (List.nodup_cons.mp hnd).2
        (fun q hq => hkeys q (List.mem_cons_of_mem p hq)) j hjrest (by simpa using hlt)

/-! ### Generic lemmas about the candidate loop -/

theorem try_candidates_isSome (d : WordDict) (pl np wi : Nat) (pw : List (List Word))
    (recurse : List (List Word) → Option (List Solution))
    (hb : ∀ j ∈ List.range' (wi + 1) (np - (wi + 1)), j < pw.length)
    (hrec : ∀ c pwc2,
      prune c d pl wi (pw.set wi [c])
        (List.range' (wi + 1) (np - (wi + 1))) = some (some pwc2) →
      ∃ s, recurse pwc2 = some s) :
    ∀ cands, ∃ res, try_candidates d pl np wi pw recurse cands = some res := by
  intro cands
  induction cands with
  | nil => exact ⟨[], rfl⟩
  | cons c rest ih =>
    rw [try_candidates]
    split
    · rename_i heq
      obtain ⟨r, hr⟩ := prune_ne_none c d pl wi (List.range' (wi + 1) (np - (wi + 1)))
        (pw.set wi [c]) (fun j hj => by rw [List.length_set]; exact hb j hj)
      rw [heq] at hr
      cases hr
    · exact ih
    · rename_i pwc2 heq
      obtain ⟨s1, hs1⟩ := hrec c pwc2 heq
      obtain ⟨s2, hs2⟩ := ih
      rw [hs1, hs2]
      exact ⟨s1 ++ s2, rfl⟩

theorem try_candidates_sound (d : WordDict) (pl np wi : Nat) (pw : List (List Word))
    (recurse : List (List Word) → Option (List Solution)) (P : Solution → Prop) :
    ∀ (cands : List Word),
      (∀ c ∈ cands, ∀ pwc2 s1,
        prune c d pl wi (pw.set wi [c])
          (List.range' (wi + 1) (np - (wi + 1))) = some (some pwc2) →
        recurse pwc2 = some s1 → ∀ S ∈ s1, P S) →
      ∀ res, try_candidates d pl np wi pw recurse cands = some res → ∀ S ∈ res, P S := by
  intro cands
  induction cands with
  | nil =>
    intro _ res h S hS
    rw [try_candidates] at h
    cases h
    cases hS
  | cons c rest ih =>
    intro hc res h S hS
    rw [try_candidates] at h
    split at h
    · cases h
    · exact ih (fun c' hc' => hc c' (List.mem_cons_of_mem c hc')) res h S hS
    · rename_i pwc2 heq
      cases hrec : recurse pwc2 with
      | none => rw [hrec] at h; cases h
      | some s1 =>
        rw [hrec] at h
        cases hrest : try_candidates d pl np wi pw recurse rest with
        | none => rw [hrest] at h; cases h
        | some s2 =>
          rw [hrest] at h
          cases h
          rcases List.mem_append.mp hS with h1 | h2
          · exact hc c (List.mem_cons_self c rest) pwc2 s1 heq hrec S h1
          · exact ih (fun c' hc' => hc c' (List.mem_cons_of_mem c hc')) s2 hrest S h2

theorem try_candidates_mem (d : WordDict) (pl np wi : Nat) (pw : List (List Word))
    (recurse : List (List Word) → Option (List Solution)) (S0 : Solution)
    (hb : ∀ j ∈ List.range' (wi + 1) (np - (wi + 1)), j < pw.length)
    (hrec : ∀ c pwc2,
      prune c d pl wi (pw.set wi [c])
        (List.range' (wi + 1) (np - (wi + 1))) = some (some pwc2) →
      ∃ s, recurse pwc2 = some s) :
    ∀ (cands : List Word) (c0 : Word), c0 ∈ cands →
      (∃ pwc2 s, prune c0 d pl wi (pw.set wi [c0])
          (List.range' (wi + 1) (np - (wi + 1))) = some (some pwc2) ∧
        recurse pwc2 = some s ∧ S0 ∈ s) →
      ∃ res, try_candidates d pl np wi pw recurse cands = some res ∧ S0 ∈ res := by
  intro cands
  induction cands with
  | nil => intro c0 hc0; cases hc0
  | cons c rest ih =>
    intro c0 hc0 h0
    rw [try_candidates]
    split
    · rename_i heq
      obtain ⟨r, hr⟩ := prune_ne_none c d pl wi (List.range' (wi + 1) (np - (wi + 1)))
        (pw.set wi [c]) (fun j hj => by rw [List.length_set]; exact hb j hj)
      rw [heq] at hr
      cases hr
    · rename_i heq
      rcases List.mem_cons.mp hc0 with hceq | hrest
      · subst hceq
        obtain ⟨pwc2, s, hpr, _, _⟩ := h0
        rw [heq] at hpr
        cases hpr
      · exact ih c0 hrest h0
    · rename_i pwc2 heq
      rcases List.mem_cons.mp hc0 with hceq | hrest
      · subst hceq
        obtain ⟨pwc2x, s, hpr, hrec0, hS0⟩ := h0
        rw [heq] at hpr
        cases hpr
        obtain ⟨s2, hs2⟩ := try_candidates_isSome d pl np wi pw recurse hb hrec rest
        rw [hrec0, hs2]
        exact ⟨s ++ s2, rfl, List.mem_append.mpr (Or.inl hS0)⟩
      · obtain ⟨s1, hs1⟩ := hrec c pwc2 heq
        obtain ⟨res, hres, hmem⟩ := ih c0 hrest h0
        rw [hs1, hres]
        exact ⟨s1 ++ res, rfl, List.mem_append.mpr (Or.inr hmem)⟩


/-! ### The terminal case of `update_words` -/

theorem update_wordsF_terminal (d : WordDict) (pl np : Nat) (fuel : Nat)
    (pw : List (List Word)) (hlen : pw.length = np) (hnp : 1 ≤ np)
    (hrows : ∀ i, i < np - 1 → pw.getD i [] ≠ []) :
    update_wordsF d pl np (fuel + 1) pw (np - 1) =
      some ((pw.getD (np - 1) []).map
        (fun w => ((List.range (np - 1)).map (fun i => (pw.getD i []).headD [])) ++ [w])) := by
  rw [update_wordsF, if_pos rfl]
  have hlt : np - 1 < pw.length := by omega
  rw [getElem?_eq_some_getD pw (np - 1) [] hlt]
  simp only
  by_cases hemp : (pw.getD (np - 1) []).length = 0
  · rw [if_pos hemp, List.length_eq_zero.mp hemp]
    rfl
  · rw [if_neg hemp,
      getFirsts_eq pw (np - 1) (fun i hi => ⟨by omega, hrows i hi⟩),
      List.getLast?_eq_getElem?, hlen,
      getElem?_eq_some_getD pw (np - 1) [] hlt]

/-! ### `update_words` never raises under the driver invariants -/

theorem update_wordsF_isSome (d : WordDict) (pl np : Nat) :
    ∀ (fuel : Nat) (pw : List (List Word)) (wi : Nat),
      pw.length = np → 1 ≤ wi → wi ≤ np - 1 → np - wi < fuel →
      (∀ i, i < wi → pw.getD i [] ≠ []) →
      ∃ s, update_wordsF d pl np fuel pw wi = some s := by
  intro fuel
  induction fuel with
  | zero =>
    intro pw wi _ h1 hle hf _
    omega
  | succ fuel ih =>
    intro pw wi hlen h1 hle hf hrows
    by_cases hterm : wi = np - 1
    · subst hterm
      rw [update_wordsF_terminal d pl np fuel pw hlen (by omega) hrows]
      exact ⟨_, rfl⟩
    · have hwi_lt : wi < np - 1 := by omega
      rw [update_wordsF, if_neg hterm,
        getElem?_eq_some_getD pw wi [] (by omega)]
      apply try_candidates_isSome d pl np wi pw _
        (fun j hj => by have := List.mem_range'_1.mp hj; omega)
      intro c pwc2 hpr
      obtain ⟨plen, pout, _⟩ := prune_spec c d pl wi
        (List.range' (wi + 1) (np - (wi + 1))) (pw.set wi [c]) pwc2
        (List.nodup_range' _ _) hpr
      have hwi_len : wi < pw.length := by omega
      apply ih pwc2 (wi + 1)
      · rw [plen, List.length_set, hlen]
      · omega
      · omega
      · omega
      · intro i hi
        have hnotin : i ∉ List.range' (wi + 1) (np - (wi + 1)) := fun hin => by
          have := List.mem_range'_1.mp hin
          omega
        rw [pout i hnotin]
        rcases Nat.lt_or_ge i wi with hiw | hiw
        · rw [getD_set_ne _ _ _ (by omega)]
          exact hrows i hiw
        · have : i = wi := by omega
          subst this
          rw [getD_set_eq _ _ _ hwi_len]
          simp

/-! ### Behaviour of `update_words` when the final row is empty -/

theorem prune_hits_empty (c : Word) (d : WordDict) (pl wi : Nat) :
    ∀ (n a : Nat) (pwc : List (List Word)),
      a + n = pwc.length → a < pwc.length →
      pwc.getD (pwc.length - 1) [] = [] →
      prune c d pl wi pwc (List.range' a n) = some none := by
  intro n
  induction n with
  | zero => intro a pwc hsum hlt _; omega
  | succ n ih =>
    intro a pwc hsum hlt hemp
    rw [List.range'_succ, prune]
    cases htemp : d (get_part c pl a, wi) with
    | none => rfl
    | some temp =>
      rw [getElem?_eq_some_getD pwc a [] hlt]
      simp only
      by_cases hlast : a = pwc.length - 1
      · have hrow : pwc.getD a [] = [] := by rw [hlast, hemp]
        rw [if_pos (by rw [hrow]; simp)]
      · have hfil : temp.filter (fun word => decide (word ∈ pwc.getD a [])) = [] ∨
            temp.filter (fun word => decide (word ∈ pwc.getD a [])) ≠ [] := em _
        rcases hfil with hnil | hne
        · rw [if_pos hnil]
        · rw [if_neg hne]
          apply ih (a + 1)
          · rw [List.length_set]; omega
          · rw [List.length_set]; omega
          · rw [List.length_set, getD_set_ne _ _ _ (by omega)]
            exact hemp

theorem try_candidates_all_pruned (d : WordDict) (pl np wi : Nat) (pw : List (List Word))
    (recurse : List (List Word) → Option (List Solution))
    (hp : ∀ c, prune c d pl wi (pw.set wi [c])
      (List.range' (wi + 1) (np - (wi + 1))) = some none) :
    ∀ cands, try_candidates d pl np wi pw recurse cands = some [] := by
  intro cands
  induction cands with
  | nil => rfl
  | cons c rest ih =>
    rw [try_candidates, hp c]
    exact ih

theorem update_words_last_empty (d : WordDict) (pl np : Nat)
    (pw : List (List Word)) (wi : Nat) (hlen : pw.length = np)
    (h1 : 1 ≤ wi) (hle : wi ≤ np - 1)
    (hemp : pw.getD (np - 1) [] = []) :
    update_words pw d pl np wi = some [] := by
  rw [update_words, hlen]
  by_cases hterm : wi = np - 1
  · subst hterm
    rw [update_wordsF, if_pos rfl,
      getElem?_eq_some_getD pw (np - 1) [] (by omega), hemp]
    rfl
  · have hwi_lt : wi < np - 1 := by omega
    rw [update_wordsF, if_neg hterm,
      getElem?_eq_some_getD pw wi [] (by omega)]
    apply try_candidates_all_pruned
    intro c
    apply prune_hits_empty
    · rw [List.length_set]; omega
    · rw [List.length_set]; omega
    · rw [List.length_set, hlen, getD_set_ne _ _ _ (by omega)]
      exact hemp

theorem seedRows_break (f : Word) (d : WordDict) (pl : Nat) :
    ∀ (n a : Nat) (pw : List (List Word)) (np : Nat), a + n = np → 1 ≤ a →
      (∃ p, a ≤ p ∧ p < np ∧ d (get_part f pl p, 0) = none) →
      pw.getD (np - 1) [] = [] →
      (seedRows f d pl pw (List.range' a n)).getD (np - 1) [] = [] := by
  intro n
  induction n with
  | zero =>
    intro a pw np hsum _ hfail hemp
    obtain ⟨p, hap, hpn, _⟩ := hfail
    omega
  | succ n ih =>
    intro a pw np hsum ha hfail hemp
    rw [List.range'_succ, seedRows]
    cases hb : d (get_part f pl a, 0) with
    | none => exact hemp
    | some bucket =>
      obtain ⟨p, hap, hpn, hpnone⟩ := hfail
      have hpa : p ≠ a := fun hh => by rw [hh, hb] at hpnone; cases hpnone
      apply ih (a + 1) _ np (by omega) (by omega) ⟨p, by omega, hpn, hpnone⟩
      rw [getD_set_ne _ _ _ (by omega)]
      exact hemp

/-! ### The outer loop over first words -/

theorem update_seed_isSome (d : WordDict) (pl np : Nat) (hnp : 2 ≤ np) (f : Word) :
    ∃ s, update_words (seed f d pl np) d pl np 1 = some s := by
  rw [update_words, seed_length]
  apply update_wordsF_isSome d pl np (np + 1) _ 1 (seed_length f d pl np)
    (le_refl 1) (by omega) (by omega)
  intro i hi
  have hi0 : i = 0 := by omega
  subst hi0
  rw [seed_getD_zero f d pl np (by omega)]
  simp

theorem solveLoop_isSome (d : WordDict) (pl np : Nat) :
    ∀ ws : List Word,
      (∀ first ∈ ws, ∃ s, update_words (seed first d pl np) d pl np 1 = some s) →
      ∃ s, solveLoop d pl np ws = some s := by
  intro ws
  induction ws with
  | nil => intro _; exact ⟨[], rfl⟩
  | cons f rest ih =>
    intro h
    obtain ⟨s1, hs1⟩ := h f (List.mem_cons_self f rest)
    obtain ⟨s2, hs2⟩ := ih (fun g hg => h g (List.mem_cons_of_mem f hg))
    rw [solveLoop, hs1, hs2]
    exact ⟨s1 ++ s2, rfl⟩

theorem solveLoop_sound (d : WordDict) (pl np : Nat) (P : Solution → Prop) :
    ∀ (ws : List Word) (sols : List Solution), solveLoop d pl np ws = some sols →
      (∀ first ∈ ws, ∀ s1, update_words (seed first d pl np) d pl np 1 = some s1 →
        ∀ S ∈ s1, P S) →
      ∀ S ∈ sols, P S := by
  intro ws
  induction ws with
  | nil =>
    intro sols h _ S hS
    rw [solveLoop] at h
    cases h
    cases hS
  | cons f rest ih =>
    intro sols h hfirst S hS
    rw [solveLoop] at h
    cases h1 : update_words (seed f d pl np) d pl np 1 with
    | none => rw [h1] at h; cases h
    | some s1 =>
      rw [h1] at h
      cases h2 : solveLoop d pl np rest with
      | none => rw [h2] at h; cases h
      | some s2 =>
        rw [h2] at h
        cases h
        rcases List.mem_append.mp hS with hm | hm
        · exact hfirst f (List.mem_cons_self f rest) s1 h1 S hm
        · exact ih s2 h2 (fun g hg => hfirst g (List.mem_cons_of_mem f hg)) S hm

theorem solveLoop_mem (d : WordDict) (pl np : Nat) (S0 : Solution) :
    ∀ ws : List Word,
      (∀ first ∈ ws, ∃ s, update_words (seed first d pl np) d pl np 1 = some s) →
      ∀ f ∈ ws, (∀ s1, update_words (seed f d pl np) d pl np 1 = some s1 → S0 ∈ s1) →
      ∃ sols, solveLoop d pl np ws = some sols ∧ S0 ∈ sols := by
  intro ws
  induction ws with
  | nil => intro _ f hf; cases hf
  | cons g rest ih =>
    intro hall f hf hupd
    obtain ⟨s1, hs1⟩ := hall g (List.mem_cons_self g rest)
    obtain ⟨s2, hs2⟩ := solveLoop_isSome d pl np rest
      (fun g' hg' => hall g' (List.mem_cons_of_mem g hg'))
    rcases List.mem_cons.mp hf with hfg | hfrest
    · subst hfg
      rw [solveLoop, hs1, hs2]
      exact ⟨s1 ++ s2, rfl, List.mem_append.mpr (Or.inl (hupd s1 hs1))⟩
    · obtain ⟨sols', hsols', hmem'⟩ := ih
        (fun g' hg' => hall g' (List.mem_cons_of_mem g hg')) f hfrest hupd
      rw [solveLoop, hs1, hsols']
      exact ⟨s1 ++ sols', rfl, List.mem_append.mpr (Or.inr hmem')⟩

theorem solveLoopCount_fst (d : WordDict) (pl np : Nat) :
    ∀ ws : List Word, (solveLoopCount d pl np ws).1 = solveLoop d pl np ws := by
  intro ws
  induction ws with
  | nil => rfl
  | cons f rest ih =>
    rw [solveLoopCount, solveLoop]
    cases h1 : update_words (seed f d pl np) d pl np 1 with
    | none => rfl
    | some s1 =>
      cases h2 : solveLoopCount d pl np rest with
      | mk r k =>
        cases r with
        | none =>
          rw [h2] at ih
          rw [← ih]
        | some s2 =>
          rw [h2] at ih
          rw [← ih]

/-! ### Soundness invariant of the backtracking search -/

theorem update_wordsF_sound (d : WordDict) (pl np : Nat)
    (hd : ∀ t p l w, d (t, p) = some l → w ∈ l → get_part w pl p = t) :
    ∀ (fuel : Nat) (pw : List (List Word)) (wi : Nat) (sols : List Solution),
      pw.length = np → 1 ≤ wi →
      (∀ i, i < wi → ∃ w0, pw.getD i [] = [w0]) →
      (∀ i j, i < wi → j < wi →
        get_part ((pw.getD i []).headD []) pl j =
          get_part ((pw.getD j []).headD []) pl i) →
      (∀ i j w, i < wi → wi ≤ j → j < np → w ∈ pw.getD j [] →
        get_part w pl i = get_part ((pw.getD i []).headD []) pl j) →
      update_wordsF d pl np fuel pw wi = some sols →
      ∀ S ∈ sols, S.length = np ∧ ∀ i j, i < np → j < np →
        get_part (S.getD i []) pl j = get_part (S.getD j []) pl i := by
  intro fuel
  induction fuel with
  | zero => intro pw wi sols _ _ _ _ _ h; cases h
  | succ fuel ih =>
    intro pw wi sols hlen h1 hsing hfix hcross hup
    by_cases hterm : wi = np - 1
    · subst hterm
      have hnp : 2 ≤ np := by omega
      have hrows : ∀ i, i < np - 1 → pw.getD i [] ≠ [] := fun i hi => by
        obtain ⟨w0, hw0⟩ := hsing i hi
        rw [hw0]
        simp
      rw [update_wordsF_terminal d pl np fuel pw hlen (by omega) hrows] at hup
      cases hup
      intro S hS
      obtain ⟨w, hw, hSw⟩ := List.mem_map.mp hS
      subst hSw
      have hflen : ((List.range (np - 1)).map
          (fun i => (pw.getD i []).headD [])).length = np - 1 := by simp
      have hget : ∀ k, k < np →
          ((List.range (np - 1)).map (fun i => (pw.getD i []).headD []) ++ [w]).getD k [] =
            if k < np - 1 then (pw.getD k []).headD [] else w := by
        intro k hk
        by_cases hk1 : k < np - 1
        · rw [if_pos hk1, getD_append_left _ (by rw [hflen]; exact hk1),
            getD_range_map _ _ hk1]
        · rw [if_neg hk1]
          have hkeq : k = np - 1 := by omega
          subst hkeq
          have h2 := getD_append_length
            ((List.range (np - 1)).map (fun i => (pw.getD i []).headD [])) w []
          rw [hflen] at h2
          exact h2
      constructor
      · rw [List.length_append, hflen]
        simp
        omega
      · intro i j hi hj
        rw [hget i hi, hget j hj]
        by_cases hi1 : i < np - 1 <;> by_cases hj1 : j < np - 1
        · rw [if_pos hi1, if_pos hj1]
          exact hfix i j hi1 hj1
        · rw [if_pos hi1, if_neg hj1]
          have hjeq : j = np - 1 := by omega
          subst hjeq
          exact (hcross i (np - 1) w hi1 (le_refl _) (by omega) hw).symm
        · rw [if_neg hi1, if_pos hj1]
          have hieq : i = np - 1 := by omega
          subst hieq
          exact hcross j (np - 1) w hj1 (le_refl _) (by omega) hw
        · rw [if_neg hi1, if_neg hj1]
          have hieq : i = np - 1 := by omega
          have hjeq : j = np - 1 := by omega
          rw [hieq, hjeq]
    · rw [update_wordsF, if_neg hterm] at hup
      cases hrow : pw[wi]? with
      | none => rw [hrow] at hup; cases hup
      | some row =>
        rw [hrow] at hup
        have hrowD : pw.getD wi [] = row := getElem?_some_getD _ hrow
        have hwi_len : wi < pw.length := by
          rcases Nat.lt_or_ge wi pw.length with h | h
          · exact h
          · rw [List.getElem?_eq_none h] at hrow; cases hrow
        have hwi_np : wi < np := by omega
        refine try_candidates_sound d pl np wi pw
          (fun pwc2 => update_wordsF d pl np fuel pwc2 (wi + 1))
          (fun S => S.length = np ∧ ∀ i j, i < np → j < np →
            get_part (S.getD i []) pl j = get_part (S.getD j []) pl i) row ?_ sols hup
        intro c hc pwc2 s1 hpr hrec
        obtain ⟨plen, pout, pin⟩ := prune_spec c d pl wi
          (List.range' (wi + 1) (np - (wi + 1))) (pw.set wi [c]) pwc2
          (List.nodup_range' _ _) hpr
        have hlen2 : pwc2.length = np := by rw [plen, List.length_set, hlen]
        have hunchlt : ∀ i, i < wi → pwc2.getD i [] = pw.getD i [] := by
          intro i hi
          rw [pout i (fun hin => by have := List.mem_range'_1.mp hin; omega),
            getD_set_ne _ _ _ (by omega)]
        have hwic : pwc2.getD wi [] = [c] := by
          rw [pout wi (fun hin => by have := List.mem_range'_1.mp hin; omega),
            getD_set_eq _ _ _ hwi_len]
        have hwi_np1 : wi < np - 1 := by omega
        have hmemhigh : ∀ j w, wi + 1 ≤ j → j < np → w ∈ pwc2.getD j [] →
            w ∈ pw.getD j [] ∧ ∃ temp, d (get_part c pl j, wi) = some temp ∧ w ∈ temp := by
          intro j w hj1 hj2 hwmem
          have hjmem : j ∈ List.range' (wi + 1) (np - (wi + 1)) :=
            List.mem_range'_1.mpr ⟨hj1, by omega⟩
          obtain ⟨hjlt, temp, htemp, hval, _⟩ := pin j hjmem
          rw [hval] at hwmem
          have := List.mem_filter.mp hwmem
          refine ⟨?_, temp, htemp, this.1⟩
          have := this.2
          rw [getD_set_ne _ _ _ (by omega)] at this
          simpa using this
        apply ih pwc2 (wi + 1) s1 hlen2 (by omega)
        · intro i hi
          rcases Nat.lt_or_ge i wi with hiw | hiw
          · rw [hunchlt i hiw]
            exact hsing i hiw
          · have : i = wi := by omega
            subst this
            exact ⟨c, hwic⟩
        · intro i j hi hj
          rcases Nat.lt_or_ge i wi with hiw | hiw <;> rcases Nat.lt_or_ge j wi with hjw | hjw
          · rw [hunchlt i hiw, hunchlt j hjw]
            exact hfix i j hiw hjw
          · have hjeq : j = wi := by omega
            subst hjeq
            rw [hunchlt i hiw, hwic]
            exact (hcross i j c hiw (le_refl _) hwi_np (hrowD ▸ hc)).symm
          · have hieq : i = wi := by omega
            subst hieq
            rw [hunchlt j hjw, hwic]
            exact hcross j i c hjw (le_refl _) hwi_np (hrowD ▸ hc)
          · have hieq : i = wi := by omega
            have hjeq : j = wi := by omega
            rw [hieq, hjeq]
        · intro i j w hi hj1 hj2 hwmem
          obtain ⟨hwpw, temp, htemp, hwtemp⟩ := hmemhigh j w hj1 hj2 hwmem
          rcases Nat.lt_or_ge i wi with hiw | hiw
          · rw [hunchlt i hiw]
            exact hcross i j w hiw (by omega) hj2 hwpw
          · have : i = wi := by omega
            subst this
            rw [hwic]
            exact hd _ _ _ _ htemp hwtemp
        · exact hrec

/-! ### Completeness invariant of the backtracking search -/

theorem update_wordsF_complete (d : WordDict) (pl np : Nat) (S0 : List Word)
    (hS0len : S0.length = np)
    (hd2 : ∀ wi j, 1 ≤ wi → wi < j → j < np →
      ∃ temp, d (get_part (S0.getD wi []) pl j, wi) = some temp ∧ S0.getD j [] ∈ temp) :
    ∀ (fuel : Nat) (pw : List (List Word)) (wi : Nat),
      pw.length = np → 1 ≤ wi → wi ≤ np - 1 → np - wi < fuel →
      (∀ i, i < wi → pw.getD i [] = [S0.getD i []]) →
      (∀ j, wi ≤ j → j < np → S0.getD j [] ∈ pw.getD j []) →
      ∃ sols, update_wordsF d pl np fuel pw wi = some sols ∧ S0 ∈ sols := by
  intro fuel
  induction fuel with
  | zero => intro pw wi _ _ _ hf _ _; omega
  | succ fuel ih =>
    intro pw wi hlen h1 hle hf hfixed hmem
    by_cases hterm : wi = np - 1
    · subst hterm
      have hnp : 2 ≤ np := by omega
      have hrows : ∀ i, i < np - 1 → pw.getD i [] ≠ [] := fun i hi => by
        rw [hfixed i hi]
        simp
      rw [update_wordsF_terminal d pl np fuel pw hlen (by omega) hrows]
      refine ⟨_, rfl, ?_⟩
      have hfirsts : (List.range (np - 1)).map (fun i => (pw.getD i []).headD []) =
          (List.range (np - 1)).map (fun i => S0.getD i []) :=
        List.map_congr_left (fun i hi => by rw [hfixed i (List.mem_range.mp hi)]; rfl)
      rw [hfirsts]
      refine List.mem_map.mpr ⟨S0.getD (np - 1) [], hmem (np - 1) (le_refl _) (by omega), ?_⟩
      obtain ⟨m, hmeq⟩ : ∃ m, np = m + 1 := ⟨np - 1, by omega⟩
      subst hmeq
      simp only [Nat.add_sub_cancel]
      have hself := eq_range_map_getD S0 ([] : Word)
      rw [hS0len] at hself
      conv_rhs => rw [hself]
      rw [List.range_succ, List.map_append]
      rfl
    · have hwi_lt : wi < np - 1 := by omega
      have hwi_len : wi < pw.length := by omega
      rw [update_wordsF, if_neg hterm, getElem?_eq_some_getD pw wi [] hwi_len]
      have hbound : ∀ j ∈ List.range' (wi + 1) (np - (wi + 1)), j < pw.length := fun j hj => by
        have := List.mem_range'_1.mp hj
        omega
      have hrec_some : ∀ c pwc2, prune c d pl wi (pw.set wi [c])
          (List.range' (wi + 1) (np - (wi + 1))) = some (some pwc2) →
          ∃ s, update_wordsF d pl np fuel pwc2 (wi + 1) = some s := by
        intro c pwc2 hpr
        obtain ⟨plen, pout, _⟩ := prune_spec c d pl wi
          (List.range' (wi + 1) (np - (wi + 1))) (pw.set wi [c]) pwc2
          (List.nodup_range' _ _) hpr
        apply update_wordsF_isSome d pl np fuel pwc2 (wi + 1)
        · rw [plen, List.length_set, hlen]
        · omega
        · omega
        · omega
        · intro i hi
          rcases Nat.lt_or_ge i wi with hiw | hiw
          · rw [pout i (fun hin => by have := List.mem_range'_1.mp hin; omega),
              getD_set_ne _ _ _ (by omega), hfixed i hiw]
            simp
          · have hieq : i = wi := by omega
            subst hieq
            rw [pout i (fun hin => by have := List.mem_range'_1.mp hin; omega),
              getD_set_eq _ _ _ hwi_len]
            simp
      refine try_candidates_mem d pl np wi pw
        (fun pwc2 => update_wordsF d pl np fuel pwc2 (wi + 1)) S0 hbound hrec_some
        (pw.getD wi []) (S0.getD wi []) (hmem wi (le_refl _) (by omega)) ?_
      have hkeys : ∀ j ∈ List.range' (wi + 1) (np - (wi + 1)),
          j < (pw.set wi [S0.getD wi []]).length ∧ ∃ temp,
          d (get_part (S0.getD wi []) pl j, wi) = some temp ∧
          ∃ w, w ∈ temp ∧ w ∈ (pw.set wi [S0.getD wi []]).getD j [] := by
        intro j hj
        have hjr := List.mem_range'_1.mp hj
        obtain ⟨temp, htemp, hS0temp⟩ := hd2 wi j h1 (by omega) (by omega)
        refine ⟨by rw [List.length_set]; omega, temp, htemp, S0.getD j [], hS0temp, ?_⟩
        rw [getD_set_ne _ _ _ (by omega)]
        exact hmem j (by omega) (by omega)
      obtain ⟨pwc2, hpr⟩ := prune_success (S0.getD wi []) d pl wi
        (List.range' (wi + 1) (np - (wi + 1))) (pw.set wi [S0.getD wi []])
        (List.nodup_range' _ _) hkeys
      obtain ⟨plen, pout, pin⟩ := prune_spec (S0.getD wi []) d pl wi
        (List.range' (wi + 1) (np - (wi + 1))) (pw.set wi [S0.getD wi []]) pwc2
        (List.nodup_range' _ _) hpr
      have hfixed' : ∀ i, i < wi + 1 → pwc2.getD i [] = [S0.getD i []] := by
        intro i hi
        rcases Nat.lt_or_ge i wi with hiw | hiw
        · rw [pout i (fun hin => by have := List.mem_range'_1.mp hin; omega),
            getD_set_ne _ _ _ (by omega)]
          exact hfixed i hiw
        · have hieq : i = wi := by omega
          subst hieq
          rw [pout i (fun hin => by have := List.mem_range'_1.mp hin; omega),
            getD_set_eq _ _ _ hwi_len]
      have hmem' : ∀ j, wi + 1 ≤ j → j < np → S0.getD j [] ∈ pwc2.getD j [] := by
        intro j hj1 hj2
        have hjmem : j ∈ List.range' (wi + 1) (np - (wi + 1)) :=
          List.mem_range'_1.mpr ⟨hj1, by omega⟩
        obtain ⟨_, temp, htemp, hval, _⟩ := pin j hjmem
        rw [hval]
        obtain ⟨temp', htemp', hS0temp'⟩ := hd2 wi j h1 (by omega) hj2
        have hte : temp' = temp := by rw [htemp] at htemp'; cases htemp'; rfl
        subst hte
        refine List.mem_filter.mpr ⟨hS0temp', ?_⟩
        rw [getD_set_ne _ _ _ (by omega)]
        simpa using hmem j (by omega) hj2
      obtain ⟨s, hs, hS0s⟩ := ih pwc2 (wi + 1) (by rw [plen, List.length_set, hlen])
        (by omega) (by omega) (by omega) hfixed' hmem'
      exact ⟨pwc2, s, hpr, hs, hS0s⟩

/-! ### Facts about the recursive descent relation -/

theorem searchStep_facts (d : WordDict) (pl np : Nat) (s s' : List (List Word) × Nat)
    (h : SearchStep d pl np s s') :
    s'.2 = s.2 + 1 ∧
    (∀ j w, w ∈ s'.1.getD j [] → w ∈ s.1.getD j []) ∧
    (∀ i, i < s.2 → s'.1.getD i [] = s.1.getD i []) := by
  obtain ⟨row, c, pwc2, hne, hrow, hc, hpr, heq⟩ := h
  subst heq
  obtain ⟨plen, pout, pin⟩ := prune_spec c d pl s.2
    (List.range' (s.2 + 1) (np - (s.2 + 1))) (s.1.set s.2 [c]) pwc2
    (List.nodup_range' _ _) hpr
  have hwlen : s.2 < s.1.length := by
    rcases Nat.lt_or_ge s.2 s.1.length with h | h
    · exact h
    · rw [List.getElem?_eq_none h] at hrow; cases hrow
  have hrowD : s.1.getD s.2 [] = row := getElem?_some_getD _ hrow
  refine ⟨rfl, ?_, ?_⟩
  · intro j w hw
    by_cases hjmem : j ∈ List.range' (s.2 + 1) (np - (s.2 + 1))
    · obtain ⟨hjlt, temp, htemp, hval, _⟩ := pin j hjmem
      rw [hval] at hw
      have h2 := (List.mem_filter.mp hw).2
      have hjr := List.mem_range'_1.mp hjmem
      rw [getD_set_ne _ _ _ (by omega)] at h2
      simpa using h2
    · rw [pout j hjmem] at hw
      by_cases hjw : j = s.2
      · subst hjw
        rw [getD_set_eq _ _ _ hwlen] at hw
        have hwc : w = c := by simpa using hw
        subst hwc
        rw [hrowD]
        exact hc
      · rw [getD_set_ne _ _ _ (fun hh => hjw hh.symm)] at hw
        exact hw
  · intro i hi
    rw [pout i (fun hin => by have := List.mem_range'_1.mp hin; omega),
      getD_set_ne _ _ _ (by omega)]

theorem searchSteps_facts (d : WordDict) (pl np : Nat) (s s' : List (List Word) × Nat)
    (h : Relation.ReflTransGen (SearchStep d pl np) s s') :
    s.2 ≤ s'.2 ∧ (∀ j w, w ∈ s'.1.getD j [] → w ∈ s.1.getD j []) ∧
    ∀ i, i < s.2 → s'.1.getD i [] = s.1.getD i [] := by
  induction h with
  | refl => exact ⟨le_refl _, fun j w hw => hw, fun i _ => rfl⟩
  | tail hab hbc ih =>
    obtain ⟨hle, hsub, hfix⟩ := ih
    obtain ⟨heq2, hsub2, hfix2⟩ := searchStep_facts d pl np _ _ hbc
    refine ⟨by omega, fun j w hw => hsub j w (hsub2 j w hw), fun i hi => ?_⟩
    rw [hfix2 i (by omega), hfix i hi]

/-! ### Claim theorems -/

/-- Claim C1: every Solution in the sequence returned by the solver has
length `num_parts` and satisfies the symmetry law
`partition(S[i], j) = partition(S[j], i)` for all `i, j < num_parts`. -/
theorem claim_C1_soundness_symmetry (pool : List Word) (part_len num_parts : Nat)
    (hpl : 0 < part_len) (hnp : 2 ≤ num_parts)
    (hwords : ∀ w ∈ pool, w.length = part_len * num_parts)
    (sols : List Solution) (hfw : find_words pool part_len num_parts = some sols) :
    ∀ S ∈ sols, S.length = num_parts ∧ ∀ i j, i < num_parts → j < num_parts →
      get_part (S.getD i []) part_len j = get_part (S.getD j []) part_len i := by
  rw [find_words] at hfw
  set d := make_word_dict pool part_len num_parts with hd_def
  have hd : ∀ t p l w, d (t, p) = some l → w ∈ l → get_part w part_len p = t :=
    fun t p l w hl hw => (lookup_mem (hd_def ▸ hl) hw).2
  refine solveLoop_sound d part_len num_parts
    (fun S => S.length = num_parts ∧ ∀ i j, i < num_parts → j < num_parts →
      get_part (S.getD i []) part_len j = get_part (S.getD j []) part_len i)
    pool sols hfw ?_
  intro first _ s1 hs1 S hS
  rw [update_words, seed_length] at hs1
  refine update_wordsF_sound d part_len num_parts hd (num_parts + 1)
    (seed first d part_len num_parts) 1 s1 (seed_length ..) (le_refl 1)
    ?_ ?_ ?_ hs1 S hS
  · intro i hi
    have hi0 : i = 0 := by omega
    subst hi0
    exact ⟨first, seed_getD_zero first d part_len num_parts (by omega)⟩
  · intro i j hi hj
    have hi0 : i = 0 := by omega
    have hj0 : j = 0 := by omega
    subst hi0
    subst hj0
    rfl
  · intro i j w hi hj1 hj2 hw
    have hi0 : i = 0 := by omega
    subst hi0
    rw [seed_getD_zero first d part_len num_parts (by omega)]
    show get_part w part_len 0 = get_part first part_len j
    rcases seed_getD_pos first d part_len num_parts hj1 with hempty | hbucket
    · rw [hempty] at hw
      cases hw
    · exact hd _ _ _ _ hbucket hw

/-- Witness for C1 at a concrete pool. -/
theorem claim_C1_witness :
    find_words [['a', 'b'], ['b', 'a']] 1 2 =
      some [[['a', 'b'], ['b', 'a']], [['b', 'a'], ['a', 'b']]] ∧
    ∀ S ∈ [[['a', 'b'], ['b', 'a']], [['b', 'a'], ['a', 'b']]],
      List.length S = 2 ∧ ∀ i j, i < 2 → j < 2 →
        get_part (S.getD i []) 1 j = get_part (S.getD j []) 1 i :=
  ⟨rfl, claim_C1_soundness_symmetry [['a', 'b'], ['b', 'a']] 1 2 (by decide) (by decide)
    (by decide) [[['a', 'b'], ['b', 'a']], [['b', 'a'], ['a', 'b']]] rfl⟩

/-- Claim C2: every sequence of `num_parts` pool words satisfying the
symmetry law occurs in the sequence returned by the solver. -/
theorem claim_C2_completeness (pool : List Word) (part_len num_parts : Nat)
    (hpl : 0 < part_len) (hnp : 2 ≤ num_parts)
    (hwords : ∀ w ∈ pool, w.length = part_len * num_parts)
    (S0 : List Word) (hS0len : S0.length = num_parts)
    (hS0mem : ∀ i, i < num_parts → S0.getD i [] ∈ pool)
    (hS0sym : ∀ i, i < num_parts → ∀ j, j < num_parts →
      get_part (S0.getD i []) part_len j = get_part (S0.getD j []) part_len i)
    (sols : List Solution) (hfw : find_words pool part_len num_parts = some sols) :
    S0 ∈ sols := by
  rw [find_words] at hfw
  set d := make_word_dict pool part_len num_parts with hd_def
  have hd2 : ∀ wi j, 1 ≤ wi → wi < j → j < num_parts →
      ∃ temp, d (get_part (S0.getD wi []) part_len j, wi) = some temp ∧
        S0.getD j [] ∈ temp := by
    intro wi j h1 hwj hj
    obtain ⟨l, hl, hml⟩ := @lookup_some pool part_len num_parts
      (get_part (S0.getD wi []) part_len j) wi (S0.getD j [])
      (by omega : wi < num_parts) (hS0mem j hj) (hS0sym j hj wi (by omega))
    exact ⟨l, hd_def ▸ hl, hml⟩
  have hkeys : ∀ p, 1 ≤ p → p < num_parts →
      ∃ b, d (get_part (S0.getD 0 []) part_len p, 0) = some b ∧ S0.getD p [] ∈ b := by
    intro p h1 hp
    obtain ⟨l, hl, hml⟩ := @lookup_some pool part_len num_parts
      (get_part (S0.getD 0 []) part_len p) 0 (S0.getD p [])
      (by omega : (0 : Nat) < num_parts) (hS0mem p hp) (hS0sym p hp 0 (by omega))
    exact ⟨l, hd_def ▸ hl, hml⟩
  have hseedmem : ∀ j, 1 ≤ j → j < num_parts →
      S0.getD j [] ∈ (seed (S0.getD 0 []) d part_len num_parts).getD j [] := by
    intro j h1 hj
    obtain ⟨b, hb, hrow⟩ := seed_success (S0.getD 0 []) d part_len
      (List.range' 1 (num_parts - 1))
      ((List.replicate num_parts ([] : List Word)).set 0 [S0.getD 0 []])
      (List.nodup_range' _ _)
      (fun q hq => by
        have hqr := List.mem_range'_1.mp hq
        obtain ⟨b, hb, _⟩ := hkeys q (by omega) (by omega)
        exact ⟨b, hb⟩)
      j (List.mem_range'_1.mpr ⟨h1, by omega⟩)
      (by rw [List.length_set, List.length_replicate]; omega)
    rw [seed, hrow]
    obtain ⟨b', hb', hmb'⟩ := hkeys j h1 hj
    have hbe : b' = b := by rw [hb] at hb'; cases hb'; rfl
    subst hbe
    exact hmb'
  have hupd : ∀ s1, update_words (seed (S0.getD 0 []) d part_len num_parts) d
      part_len num_parts 1 = some s1 → S0 ∈ s1 := by
    intro s1 hs1
    obtain ⟨sols', hsols', hS0sols'⟩ := update_wordsF_complete d part_len num_parts S0
      hS0len hd2 (num_parts + 1) (seed (S0.getD 0 []) d part_len num_parts) 1
      (seed_length ..) (le_refl 1) (by omega) (by omega)
      (fun i hi => by
        have hi0 : i = 0 := by omega
        subst hi0
        rw [seed_getD_zero _ _ _ _ (by omega)])
      (fun j hj1 hj2 => hseedmem j hj1 hj2)
    rw [update_words, seed_length] at hs1
    rw [hs1] at hsols'
    cases hsols'
    exact hS0sols'
  obtain ⟨sols2, hsols2, hS0sols2⟩ := solveLoop_mem d part_len num_parts S0 pool
    (fun first _ => update_seed_isSome d part_len num_parts hnp first)
    (S0.getD 0 []) (hS0mem 0 (by omega)) hupd
  rw [hfw] at hsols2
  cases hsols2
  exact hS0sols2

/-- Witness for C2 at a concrete pool and square. -/
theorem claim_C2_witness :
    ([['a', 'b'], ['b', 'a']] : Solution) ∈
      [[['a', 'b'], ['b', 'a']], [['b', 'a'], ['a', 'b']]] :=
  claim_C2_completeness [['a', 'b'], ['b', 'a']] 1 2 (by decide) (by decide) (by decide)
    [['a', 'b'], ['b', 'a']] (by decide) (by decide) (by decide)
    [[['a', 'b'], ['b', 'a']], [['b', 'a'], ['a', 'b']]] rfl

/-- Claim C3: for `num_parts = 1` the spec requires one Solution per pool
word, but the code raises an `IndexError` (modelled by `none`): with a single
word `"a"`, `update_words` is called with `word_idx = 1` on a one-row
structure and reads `possible_words[1]`. -/
theorem claim_C3_degenerate_raises :
    find_words [['a']] 1 1 = none := rfl

/-- Claim C4: at `word_idx = num_parts - 1` the last row's candidate list is
taken as-is: one Solution per candidate, pairing it with the heads of the
already-fixed rows, in candidate order; an empty candidate list yields the
empty sequence (the map over an empty row). -/
theorem claim_C4_terminal (possible_words : List (List Word)) (lookup_dict : WordDict)
    (part_len num_parts : Nat) (hnp : 1 ≤ num_parts)
    (hlen : possible_words.length = num_parts)
    (hfixed : ∀ i, i < num_parts - 1 → possible_words.getD i [] ≠ []) :
    update_words possible_words lookup_dict part_len num_parts (num_parts - 1) =
      some ((possible_words.getD (num_parts - 1) []).map
        (fun w => ((List.range (num_parts - 1)).map
          (fun i => (possible_words.getD i []).headD [])) ++ [w])) := by
  rw [update_words, hlen]
  exact update_wordsF_terminal lookup_dict part_len num_parts num_parts possible_words
    hlen hnp hfixed

/-- Witness for C4 at a concrete structure. -/
theorem claim_C4_witness :
    update_words [[['a', 'b']], [['c', 'd'], ['e', 'f']]] (fun _ => none) 1 2 (2 - 1) =
      some [[['a', 'b'], ['c', 'd']], [['a', 'b'], ['e', 'f']]] := by
  rw [claim_C4_terminal [[['a', 'b']], [['c', 'd'], ['e', 'f']]] (fun _ => none) 1 2
    (by decide) (by decide) (by decide)]
  rfl

/-- Claim C5 (amended): when some row `p ∈ [1, num_parts)` has key
`(partition(first, p), 0)` absent, the seeding loop stops there, leaving the
later rows empty; `update_words` IS still invoked on this partially seeded
structure, but it returns no solutions, so the first word contributes zero
Solutions. -/
theorem claim_C5_failed_seed (pool : List Word) (first : Word) (part_len num_parts : Nat)
    (hnp : 2 ≤ num_parts)
    (hfail : ∃ p, 1 ≤ p ∧ p < num_parts ∧
      make_word_dict pool part_len num_parts (get_part first part_len p, 0) = none) :
    update_words (seed first (make_word_dict pool part_len num_parts) part_len num_parts)
      (make_word_dict pool part_len num_parts) part_len num_parts 1 = some [] := by
  set d := make_word_dict pool part_len num_parts with hd_def
  apply update_words_last_empty d part_len num_parts _ 1 (seed_length ..)
    (le_refl 1) (by omega)
  rw [seed]
  apply seedRows_break first d part_len (num_parts - 1) 1 _ num_parts (by omega)
    (le_refl 1) hfail
  rw [getD_set_ne _ _ _ (by omega), getD_replicate_nil]

/-- Counterexample for C5 as stated: for the pool `["ab"]` with
`part_len = 1`, `num_parts = 2`, the only first word's seeding fails (key
`("b", 0)` is absent), yet the instrumented driver records exactly one
invocation of `update_words` — the claim's "the Backtracking Assigner is not
invoked" predicts zero. -/
theorem claim_C5_counterexample :
    make_word_dict [['a', 'b']] 1 2 (get_part ['a', 'b'] 1 1, 0) = none ∧
    (solveLoopCount (make_word_dict [['a', 'b']] 1 2) 1 2 [['a', 'b']]).2 = 1 :=
  ⟨rfl, rfl⟩

/-- Witness for the amended C5 at a concrete pool. -/
theorem claim_C5_witness :
    update_words (seed ['a', 'b'] (make_word_dict [['a', 'b']] 1 2) 1 2)
      (make_word_dict [['a', 'b']] 1 2) 1 2 1 = some [] :=
  claim_C5_failed_seed [['a', 'b']] ['a', 'b'] 1 2 (by decide)
    ⟨1, by decide, by decide, rfl⟩

/-- Claim C6: the index maps each key `(t, p)` to exactly the pool-order
list of pool words whose partition at `p` equals `t` (duplicates kept);
keys with no matching word are absent, and lookups of absent keys return
the missing value rather than an error. -/
theorem claim_C6_index (pool : List Word) (part_len num_parts : Nat)
    (hpl : 0 < part_len) (hwords : ∀ w ∈ pool, w.length = part_len * num_parts)
    (t : List Char) (p : Nat) :
    make_word_dict pool part_len num_parts (t, p) =
      if p < num_parts ∧
          pool.filter (fun w => decide (get_part w part_len p = t)) ≠ [] then
        some (pool.filter (fun w => decide (get_part w part_len p = t)))
      else none :=
  make_word_dict_apply pool part_len num_parts t p

/-- Witness for C6 at a concrete pool and key. -/
theorem claim_C6_witness :
    make_word_dict [['a', 'b'], ['c', 'b']] 1 2 ((['b'] : List Char), 1) =
      if 1 < 2 ∧ ([['a', 'b'], ['c', 'b']] : List Word).filter
          (fun w => decide (get_part w 1 1 = ['b'])) ≠ [] then
        some (([['a', 'b'], ['c', 'b']] : List Word).filter
          (fun w => decide (get_part w 1 1 = ['b'])))
      else none :=
  claim_C6_index [['a', 'b'], ['c', 'b']] 1 2 (by decide) (by decide) ['b'] 1

/-- Claim C7: under the stated preconditions (any pool of words of length
`part_len * num_parts`, `part_len > 0`, `num_parts ≥ 2`, including the
empty pool) the solver never raises: it returns `some` result, and "no
solutions" is the empty list. -/
theorem claim_C7_no_fault (pool : List Word) (part_len num_parts : Nat)
    (hpl : 0 < part_len) (hnp : 2 ≤ num_parts)
    (hwords : ∀ w ∈ pool, w.length = part_len * num_parts) :
    ∃ sols, find_words pool part_len num_parts = some sols := by
  rw [find_words]
  exact solveLoop_isSome (make_word_dict pool part_len num_parts) part_len num_parts pool
    (fun first _ =>
      update_seed_isSome (make_word_dict pool part_len num_parts) part_len num_parts
        hnp first)

/-- Witness for C7 at the empty pool. -/
theorem claim_C7_witness :
    ∃ sols, find_words [] 1 2 = some sols :=
  claim_C7_no_fault [] 1 2 (by decide) (by decide) (by decide)

/-- Claim C8: along every chain of recursive calls of the branching case,
candidate sets only shrink (as sets of words), and the rows already fixed
before the chain started are left exactly unchanged. -/
theorem claim_C8_monotonic (d : WordDict) (pl np : Nat)
    (pw pw2 : List (List Word)) (wi wi2 : Nat)
    (h : Relation.ReflTransGen (SearchStep d pl np) (pw, wi) (pw2, wi2)) :
    (∀ j w, w ∈ pw2.getD j [] → w ∈ pw.getD j []) ∧
    ∀ i, i < wi → pw2.getD i [] = pw.getD i [] := by
  have hfacts := searchSteps_facts d pl np (pw, wi) (pw2, wi2) h
  exact ⟨hfacts.2.1, hfacts.2.2⟩

/-- Witness for C8 along a concrete one-step chain. -/
theorem claim_C8_witness :
    (∀ j w, w ∈ ([[['x']], [['y']], [['z']]] : List (List Word)).getD j [] →
      w ∈ ([[['x']], [['y']], [['z']]] : List (List Word)).getD j []) ∧
    ∀ i, i < 1 → ([[['x']], [['y']], [['z']]] : List (List Word)).getD i [] =
      ([[['x']], [['y']], [['z']]] : List (List Word)).getD i [] :=
  claim_C8_monotonic (fun _ => some [['z']]) 1 3 [[['x']], [['y']], [['z']]]
    [[['x']], [['y']], [['z']]] 1 2
    (Relation.ReflTransGen.single
      ⟨[['y']], ['y'], [[['x']], [['y']], [['z']]], by decide, rfl, by decide, rfl, rfl⟩)

/-- Unfolding equation of the candidate loop when the lookup of the current
candidate fails during pruning. -/
theorem try_candidates_cons_none (d : WordDict) (pl np wi : Nat) (pw : List (List Word))
    (recurse : List (List Word) → Option (List Solution)) (c : Word) (rest : List Word)
    (h : prune c d pl wi (pw.set wi [c])
      (List.range' (wi + 1) (np - (wi + 1))) = none) :
    try_candidates d pl np wi pw recurse (c :: rest) = none := by
  rw [try_candidates, h]

/-- Unfolding equation of the candidate loop when the current candidate is
abandoned by pruning. -/
theorem try_candidates_cons_skip (d : WordDict) (pl np wi : Nat) (pw : List (List Word))
    (recurse : List (List Word) → Option (List Solution)) (c : Word) (rest : List Word)
    (h : prune c d pl wi (pw.set wi [c])
      (List.range' (wi + 1) (np - (wi + 1))) = some none) :
    try_candidates d pl np wi pw recurse (c :: rest) =
      try_candidates d pl np wi pw recurse rest := by
  rw [try_candidates, h]

/-- Unfolding equation of the candidate loop when the current candidate
survives pruning. -/
theorem try_candidates_cons_step (d : WordDict) (pl np wi : Nat) (pw : List (List Word))
    (recurse : List (List Word) → Option (List Solution)) (c : Word) (rest : List Word)
    (pwc2 : List (List Word))
    (h : prune c d pl wi (pw.set wi [c])
      (List.range' (wi + 1) (np - (wi + 1))) = some (some pwc2)) :
    try_candidates d pl np wi pw recurse (c :: rest) =
      match recurse pwc2, try_candidates d pl np wi pw recurse rest with
      | some s1, some s2 => some (s1 ++ s2)
      | _, _ => none := by
  rw [try_candidates, h]

/-- Claim C9: branch isolation — the candidate loop is a homomorphism over
candidate lists: the outcome of the candidates in `l2` is computed from the
same `possible_words` regardless of what the candidates in `l1` did, so a
branch's tentative fixes and intersections never affect its siblings. -/
theorem claim_C9_branch_isolation (d : WordDict) (pl np wi : Nat)
    (pw : List (List Word)) (recurse : List (List Word) → Option (List Solution))
    (l1 l2 : List Word) :
    try_candidates d pl np wi pw recurse (l1 ++ l2) =
      match try_candidates d pl np wi pw recurse l1,
          try_candidates d pl np wi pw recurse l2 with
      | some s1, some s2 => some (s1 ++ s2)
      | _, _ => none := by
  induction l1 with
  | nil =>
    rw [List.nil_append, try_candidates]
    cases try_candidates d pl np wi pw recurse l2 with
    | none => rfl
    | some s2 => rfl
  | cons c rest ih =>
    rw [List.cons_append]
    cases hpr : prune c d pl wi (pw.set wi [c])
        (List.range' (wi + 1) (np - (wi + 1))) with
    | none =>
      rw [try_candidates_cons_none d pl np wi pw recurse c (rest ++ l2) hpr,
        try_candidates_cons_none d pl np wi pw recurse c rest hpr]
    | some r =>
      cases r with
      | none =>
        rw [try_candidates_cons_skip d pl np wi pw recurse c (rest ++ l2) hpr,
          try_candidates_cons_skip d pl np wi pw recurse c rest hpr, ih]
      | some pwc2 =>
        rw [try_candidates_cons_step d pl np wi pw recurse c (rest ++ l2) pwc2 hpr,
          try_candidates_cons_step d pl np wi pw recurse c rest pwc2 hpr, ih]
        cases recurse pwc2 with
        | none =>
          cases try_candidates d pl np wi pw recurse rest with
          | none =>
            cases try_candidates d pl np wi pw recurse l2 with
            | none => rfl
            | some s2 => rfl
          | some sr =>
            cases try_candidates d pl np wi pw recurse l2 with
            | none => rfl
            | some s2 => rfl
        | some s1 =>
          cases try_candidates d pl np wi pw recurse rest with
          | none =>
            cases try_candidates d pl np wi pw recurse l2 with
            | none => rfl
            | some s2 => rfl
          | some sr =>
            cases try_candidates d pl np wi pw recurse l2 with
            | none => rfl
            | some s2 => simp [List.append_assoc]

/-- Claim C10: the intersection step installs, as the new candidate list of
row `p`, exactly the filter of the index bucket by membership in the
previous list — a subsequence of the bucket, in bucket (pool) order; the
previous list's own order is discarded. -/
theorem claim_C10_bucket_order (c : Word) (d : WordDict) (pl wi a n : Nat)
    (pwc pwc2 : List (List Word))
    (hp : prune c d pl wi pwc (List.range' a n) = some (some pwc2))
    (p : Nat) (hap : a ≤ p) (hpn : p < a + n) :
    ∃ temp, d (get_part c pl p, wi) = some temp ∧
      pwc2.getD p [] = temp.filter (fun w => decide (w ∈ pwc.getD p [])) ∧
      (pwc2.getD p []).Sublist temp := by
  obtain ⟨_, _, pin⟩ := prune_spec c d pl wi (List.range' a n) pwc pwc2
    (List.nodup_range' _ _) hp
  obtain ⟨_, temp, htemp, hval, _⟩ := pin p (List.mem_range'_1.mpr ⟨hap, hpn⟩)
  refine ⟨temp, htemp, hval, ?_⟩
  rw [hval]
  exact List.filter_sublist temp

/-- Witness for C10 at a concrete pruning step: the bucket holds `u` before
`v`, the previous candidate list holds `v` before `u`, and the installed
list is in bucket order. -/
theorem claim_C10_witness :
    ∃ temp, (fun _ => some ([['u'], ['v']] : List Word) : WordDict)
        (get_part ['c'] 1 1, 0) = some temp ∧
      ([[['c']], [['u'], ['v']]] : List (List Word)).getD 1 [] =
        temp.filter (fun w => decide
          (w ∈ ([[['c']], [['v'], ['u']]] : List (List Word)).getD 1 [])) ∧
      (([[['c']], [['u'], ['v']]] : List (List Word)).getD 1 []).Sublist temp :=
  claim_C10_bucket_order ['c'] (fun _ => some [['u'], ['v']]) 1 0 1 1
    [[['c']], [['v'], ['u']]] [[['c']], [['u'], ['v']]] rfl 1 (by decide) (by decide)
